import Mathlib

/-
  Verification of the RHOCore transcoder of rchain/JSAPI (src/main.js).

  The transcoder maps native JavaScript data (booleans, numbers, strings,
  null, arrays, plain string-keyed objects) to a restricted Rholang term
  AST (the protobuf Par message restricted to the RHOCore fragment), and
  back, and prints terms as Rholang source text.  The four operations
  embedded here are fromJSData, toJSData, toRholang and toByteArray.
-/

set_option maxHeartbeats 1600000

/-- Native JavaScript value universe at the encoder boundary.  Numbers are
modelled as rationals (JS numbers are not restricted to integers; the code
stores whatever number it receives into the g_int slot).  A plain object is
an insertion-ordered association list; genuine JS objects have no duplicate
keys, which theorems assume through a nodup hypothesis.  jfun and jundef
stand for a function value and the undefined value. -/
inductive JSValue where
  | jbool : Bool → JSValue
  | jnum : Rat → JSValue
  | jstr : String → JSValue
  | jnull : JSValue
  | jarr : List JSValue → JSValue
  | jobj : List (String × JSValue) → JSValue
  | jfun : JSValue
  | jundef : JSValue

/-- One protobuf Expr restricted to the four RHOCore variants used by
src/main.js (the oneof discriminator expr_instance selects one of g_bool,
g_int, g_string, e_list_body).  The parameter stands for the Par type. -/
inductive Expr (π : Type) where
  | g_bool : Bool → Expr π
  | g_int : Rat → Expr π
  | g_string : String → Expr π
  | e_list_body : List π → Expr π

/-- A protobuf Par as the JS code reads it: an optional exprs array, an
optional sends array (each send being the channel quote and the data
payload array), and a flag standing for any other content the node may
carry (receives, news, ... fields of the real Par message), which the
transcoder never inspects. -/
inductive Par where
  | mk : Option (List (Expr Par)) → Option (List (Par × List Par)) → Bool → Par

/-- The expr1 helper of fromJSData: a Par holding exactly one Expr. -/
def expr1 (kv : Expr Par) : Par := Par.mk (some [kv]) none false

/- ### The UTF-16 code unit order used by JavaScript string comparison

Array.prototype.sort without a comparator sorts strings by their UTF-16
code units.  Lean chars are unicode scalar values; charUnits is their
UTF-16 encoding. -/

/-- UTF-16 code units of one unicode scalar value. -/
def charUnits (c : Char) : List Nat :=
  let n := c.toNat
  if n < 0x10000 then [n]
  else [0xD800 + (n - 0x10000) / 0x400, 0xDC00 + (n - 0x10000) % 0x400]

/-- UTF-16 code units of a character list. -/
def utf16 : List Char → List Nat
  | [] => []
  | c :: cs => charUnits c ++ utf16 cs

/-- Lexicographic strict order on code unit sequences. -/
def unitsLtB : List Nat → List Nat → Bool
  | [], [] => false
  | [], _ :: _ => true
  | _ :: _, [] => false
  | a :: as, b :: bs => if a < b then true else if b < a then false else unitsLtB as bs

/-- JavaScript string comparison: strict less-than by UTF-16 code units. -/
def jsLtB (s t : String) : Bool := unitsLtB (utf16 s.data) (utf16 t.data)

/-- Non-strict version of jsLtB. -/
def jsLeB (s t : String) : Bool := ! jsLtB t s

theorem unitsLtB_asymm : ∀ xs ys, unitsLtB xs ys = true → unitsLtB ys xs = false := by
  intro xs
  induction xs with
  | nil => intro ys h; cases ys <;> simp_all [unitsLtB]
  | cons a as ih =>
    intro ys h
    cases ys with
    | nil => simp [unitsLtB] at h
    | cons b bs =>
      simp only [unitsLtB] at h ⊢
      by_cases hab : a < b
      · have : ¬ b < a := by omega
        simp [hab, this]
      · by_cases hba : b < a
        · simp [hab, hba] at h
        · simp [hab, hba] at h ⊢
          exact ih bs h

theorem unitsLtB_cons_iff (a b : Nat) (as bs : List Nat) :
    unitsLtB (a :: as) (b :: bs) = true ↔ a < b ∨ (a = b ∧ unitsLtB as bs = true) := by
  simp only [unitsLtB]
  by_cases hab : a < b
  · simp [hab]
  · by_cases hba : b < a
    · constructor
      · intro h; simp [hab, hba] at h
      · intro h
        rcases h with h | ⟨h, _⟩
        · omega
        · omega
    · have : a = b := by omega
      subst this
      simp [hab]

theorem unitsLtB_trans : ∀ xs ys zs, unitsLtB xs ys = true → unitsLtB ys zs = true →
    unitsLtB xs zs = true := by
  intro xs
  induction xs with
  | nil =>
    intro ys zs h1 h2
    cases ys with
    | nil => simp [unitsLtB] at h1
    | cons b bs => cases zs with
      | nil => simp [unitsLtB] at h2
      | cons c cs => simp [unitsLtB]
  | cons a as ih =>
    intro ys zs h1 h2
    cases ys with
    | nil => simp [unitsLtB] at h1
    | cons b bs =>
      cases zs with
      | nil => simp [unitsLtB] at h2
      | cons c cs =>
        rw [unitsLtB_cons_iff] at h1 h2 ⊢
        rcases h1 with h1 | ⟨h1e, h1r⟩ <;> rcases h2 with h2 | ⟨h2e, h2r⟩
        · left; omega
        · left; omega
        · left; omega
        · right
          refine ⟨by omega, ?_⟩
          exact ih bs cs h1r h2r

theorem unitsLtB_trichotomy : ∀ xs ys, xs = ys ∨ unitsLtB xs ys = true ∨ unitsLtB ys xs = true := by
  intro xs
  induction xs with
  | nil => intro ys; cases ys <;> simp [unitsLtB]
  | cons a as ih =>
    intro ys
    cases ys with
    | nil => simp [unitsLtB]
    | cons b bs =>
      rcases Nat.lt_trichotomy a b with h | h | h
      · right; left; simp [unitsLtB, h]
      · subst h
        rcases ih bs with h2 | h2 | h2
        · left; rw [h2]
        · right; left; simpa [unitsLtB] using h2
        · right; right; simpa [unitsLtB] using h2
      · right; right; simp [unitsLtB, h]

theorem char_valid_range (c : Char) : c.toNat < 0xD800 ∨ (0xDFFF < c.toNat ∧ c.toNat < 0x110000) := by
  have h := c.valid
  unfold UInt32.isValidChar at h
  unfold Nat.isValidChar at h
  exact h

theorem char_toNat_inj (c d : Char) (h : c.toNat = d.toNat) : c = d := by
  have h1 := Char.ofNat_toNat c
  have h2 := Char.ofNat_toNat d
  rw [← h1, ← h2, h]

theorem charUnits_bmp (c : Char) (h : c.toNat < 0x10000) : charUnits c = [c.toNat] := by
  simp [charUnits, h]

theorem charUnits_astral (c : Char) (h : ¬ c.toNat < 0x10000) :
    charUnits c = [0xD800 + (c.toNat - 0x10000) / 0x400, 0xDC00 + (c.toNat - 0x10000) % 0x400] := by
  simp [charUnits, h]

theorem astral_high_range (c : Char) (h : ¬ c.toNat < 0x10000) :
    0xD800 ≤ 0xD800 + (c.toNat - 0x10000) / 0x400 ∧
    0xD800 + (c.toNat - 0x10000) / 0x400 < 0xDC00 := by
  rcases char_valid_range c with h1 | ⟨_, h2⟩
  · omega
  · have : (c.toNat - 0x10000) / 0x400 < 0x400 := by
      rw [Nat.div_lt_iff_lt_mul (by norm_num)]
      omega
    omega

theorem bmp_unit_not_surrogate (c : Char) (_h : c.toNat < 0x10000) :
    c.toNat < 0xD800 ∨ 0xDFFF < c.toNat := by
  rcases char_valid_range c with h1 | ⟨h2, _⟩
  · left; exact h1
  · right; exact h2

theorem utf16_inj : ∀ cs ds : List Char, utf16 cs = utf16 ds → cs = ds := by
  intro cs
  induction cs with
  | nil =>
    intro ds h
    cases ds with
    | nil => rfl
    | cons d ds =>
      exfalso
      by_cases hd : d.toNat < 0x10000
      · rw [utf16, utf16, charUnits_bmp d hd] at h
        simp at h
      · rw [utf16, utf16, charUnits_astral d hd] at h
        simp at h
  | cons c cs ih =>
    intro ds h
    cases ds with
    | nil =>
      exfalso
      by_cases hc : c.toNat < 0x10000
      · rw [utf16, utf16, charUnits_bmp c hc] at h
        simp at h
      · rw [utf16, utf16, charUnits_astral c hc] at h
        simp at h
    | cons d ds =>
      rw [utf16, utf16] at h
      by_cases hc : c.toNat < 0x10000 <;> by_cases hd : d.toNat < 0x10000
      · rw [charUnits_bmp c hc, charUnits_bmp d hd] at h
        simp at h
        have hcd : c = d := char_toNat_inj c d h.1
        rw [hcd, ih ds h.2]
      · rw [charUnits_bmp c hc, charUnits_astral d hd] at h
        simp at h
        exfalso
        have h1 := astral_high_range d hd
        have h2 := bmp_unit_not_surrogate c hc
        omega
      · rw [charUnits_astral c hc, charUnits_bmp d hd] at h
        simp at h
        exfalso
        have h1 := astral_high_range c hc
        have h2 := bmp_unit_not_surrogate d hd
        omega
      · rw [charUnits_astral c hc, charUnits_astral d hd] at h
        simp at h
        obtain ⟨hhi, hlo, hrest⟩ := h
        have e1 : (c.toNat - 0x10000) / 0x400 = (d.toNat - 0x10000) / 0x400 := by omega
        have e2 : (c.toNat - 0x10000) % 0x400 = (d.toNat - 0x10000) % 0x400 := by omega
        have d1 := Nat.div_add_mod (c.toNat - 0x10000) 0x400
        have d2 := Nat.div_add_mod (d.toNat - 0x10000) 0x400
        have : c.toNat = d.toNat := by omega
        rw [char_toNat_inj c d this, ih ds hrest]

theorem string_data_inj (s t : String) (h : s.data = t.data) : s = t := by
  cases s; cases t; simp_all

theorem jsLtB_trichotomy (s t : String) (h : s ≠ t) :
    jsLtB s t = true ∨ jsLtB t s = true := by
  rcases unitsLtB_trichotomy (utf16 s.data) (utf16 t.data) with h1 | h1 | h1
  · exact absurd (string_data_inj s t (utf16_inj _ _ h1)) h
  · left; exact h1
  · right; exact h1

theorem jsLtB_asymm (s t : String) (h : jsLtB s t = true) : jsLtB t s = false :=
  unitsLtB_asymm _ _ h

theorem jsLtB_trans (s t u : String) (h1 : jsLtB s t = true) (h2 : jsLtB t u = true) :
    jsLtB s u = true :=
  unitsLtB_trans _ _ _ h1 h2

theorem jsLeB_total (s t : String) : jsLeB s t = true ∨ jsLeB t s = true := by
  unfold jsLeB
  by_cases h : jsLtB t s = true
  · right
    rw [jsLtB_asymm t s h]
    rfl
  · left
    simp only [Bool.not_eq_true] at h
    rw [h]
    rfl

theorem jsLeB_trans (s t u : String) (h1 : jsLeB s t = true) (h2 : jsLeB t u = true) :
    jsLeB s u = true := by
  unfold jsLeB at h1 h2 ⊢
  simp only [Bool.not_eq_true'] at h1 h2 ⊢
  by_cases hus : jsLtB u s = true
  · exfalso
    by_cases hts : t = s
    · subst hts
      rw [hus] at h2
      exact Bool.false_ne_true h2.symm
    · rcases jsLtB_trichotomy t s hts with h | h
      · rw [h] at h1
        exact Bool.false_ne_true h1.symm
      · have := jsLtB_trans u s t hus h
        rw [this] at h2
        exact Bool.false_ne_true h2.symm
  · simp only [Bool.not_eq_true] at hus
    exact hus

theorem jsLeB_of_lt (s t : String) (h : jsLtB s t = true) : jsLeB s t = true := by
  unfold jsLeB
  rw [jsLtB_asymm s t h]
  simp

theorem jsLtB_of_le_ne (s t : String) (h : jsLeB s t = true) (hne : s ≠ t) :
    jsLtB s t = true := by
  rcases jsLtB_trichotomy s t hne with h1 | h1
  · exact h1
  · unfold jsLeB at h
    rw [h1] at h
    simp at h

/- ### Insertion sort with a Bool comparator

Array.prototype.sort on a list of distinct strings returns the unique
permutation sorted by the comparison above; insertion sort computes it. -/

/-- Insert an element into a list directly before the first element that is
not below it. -/
def orderedInsertB {α : Type} (le : α → α → Bool) (a : α) : List α → List α
  | [] => [a]
  | b :: l => cond (le a b) (a :: b :: l) (b :: orderedInsertB le a l)

/-- Sorting by repeated insertion. -/
def insertionSortB {α : Type} (le : α → α → Bool) : List α → List α
  | [] => []
  | a :: l => orderedInsertB le a (insertionSortB le l)

theorem orderedInsertB_perm {α : Type} (le : α → α → Bool) (a : α) :
    ∀ l : List α, (orderedInsertB le a l).Perm (a :: l) := by
  intro l
  induction l with
  | nil => simp [orderedInsertB]
  | cons b l ih =>
    rw [orderedInsertB]
    cases le a b with
    | true => simp
    | false =>
      simp only [cond_false]
      exact ((ih.cons b).trans (List.Perm.swap a b l))

theorem insertionSortB_perm {α : Type} (le : α → α → Bool) :
    ∀ l : List α, (insertionSortB le l).Perm l := by
  intro l
  induction l with
  | nil => simp [insertionSortB]
  | cons a l ih =>
    rw [insertionSortB]
    exact (orderedInsertB_perm le a _).trans (ih.cons a)

theorem orderedInsertB_pairwise {α : Type} (le : α → α → Bool)
    (htot : ∀ a b : α, le a b = true ∨ le b a = true)
    (htrans : ∀ a b c : α, le a b = true → le b c = true → le a c = true)
    (a : α) : ∀ l : List α, l.Pairwise (fun x y => le x y = true) →
    (orderedInsertB le a l).Pairwise (fun x y => le x y = true) := by
  intro l
  induction l with
  | nil => intro _; simp [orderedInsertB]
  | cons b l ih =>
    intro hp
    rw [orderedInsertB]
    rcases List.pairwise_cons.mp hp with ⟨hb, hl⟩
    cases hab : le a b with
    | true =>
      simp only [cond_true]
      refine List.pairwise_cons.mpr ⟨?_, hp⟩
      intro x hx
      rcases List.mem_cons.mp hx with hx | hx
      · subst hx; exact hab
      · exact htrans a b x hab (hb x hx)
    | false =>
      simp only [cond_false]
      refine List.pairwise_cons.mpr ⟨?_, ih hl⟩
      intro x hx
      have hx2 := (orderedInsertB_perm le a l).mem_iff.mp hx
      rcases List.mem_cons.mp hx2 with hx2 | hx2
      · rw [hx2]
        rcases htot a b with h | h
        · rw [h] at hab; exact absurd hab.symm Bool.false_ne_true
        · exact h
      · exact hb x hx2

theorem insertionSortB_pairwise {α : Type} (le : α → α → Bool)
    (htot : ∀ a b : α, le a b = true ∨ le b a = true)
    (htrans : ∀ a b c : α, le a b = true → le b c = true → le a c = true) :
    ∀ l : List α, (insertionSortB le l).Pairwise (fun x y => le x y = true) := by
  intro l
  induction l with
  | nil => simp [insertionSortB]
  | cons a l ih =>
    rw [insertionSortB]
    exact orderedInsertB_pairwise le htot htrans a _ ih

/-- Two lists that are permutations of each other and both strictly sorted by
an asymmetric relation are equal. -/
theorem pairwise_asymm_perm_eq {α : Type} (R : α → α → Prop)
    (hasym : ∀ a b : α, R a b → ¬ R b a) :
    ∀ l₁ l₂ : List α, l₁.Pairwise R → l₂.Pairwise R → l₁.Perm l₂ → l₁ = l₂ := by
  intro l₁
  induction l₁ with
  | nil =>
    intro l₂ _ _ hperm
    exact (List.Perm.nil_eq hperm).symm ▸ rfl
  | cons a l ih =>
    intro l₂ hp1 hp2 hperm
    cases l₂ with
    | nil => exact absurd hperm.symm (by simp)
    | cons b l₂ =>
      rcases List.pairwise_cons.mp hp1 with ⟨ha, hl1⟩
      rcases List.pairwise_cons.mp hp2 with ⟨hb, hl2⟩
      by_cases hab : a = b
      · subst hab
        have := hperm.cons_inv
        rw [ih l₂ hl1 hl2 this]
      · exfalso
        have haml : a ∈ b :: l₂ := hperm.mem_iff.mp (List.mem_cons_self a l)
        have hbml : b ∈ a :: l := hperm.mem_iff.mpr (List.mem_cons_self b l₂)
        rcases List.mem_cons.mp haml with h | h
        · exact hab h
        · rcases List.mem_cons.mp hbml with h2 | h2
          · exact hab h2.symm
          · exact hasym a b (ha b h2) (hb a h)

/- ### Reduction lemmas for the error monad -/

@[simp] theorem except_ok_bind {ε α β : Type} (a : α) (f : α → Except ε β) :
    (Except.ok a : Except ε α) >>= f = f a := rfl

@[simp] theorem except_error_bind {ε α β : Type} (e : ε) (f : α → Except ε β) :
    (Except.error e : Except ε α) >>= f = Except.error e := rfl

@[simp] theorem except_map_ok {ε α β : Type} (g : α → β) (a : α) :
    (Except.ok a : Except ε α).map g = Except.ok (g a) := rfl

@[simp] theorem except_map_error {ε α β : Type} (g : α → β) (e : ε) :
    (Except.error e : Except ε α).map g = Except.error e := rfl

/- ### Rendering helpers (JSON.stringify and JS string coercion) -/

/-- Left-pad a digit string with zeros to the given length. -/
def padZeros (s : String) (k : Nat) : String :=
  String.mk (List.replicate (k - s.length) '0') ++ s

/-- Rendering of a JS number (ECMAScript ToString / JSON.stringify, which
agree on finite numbers).  This model is faithful exactly on the integral
values of magnitude below 2 to the 53: every such integer is an exactly
representable double whose ECMAScript rendering is its exact decimal
text.  Above that magnitude ECMAScript emits shortest-round-trip digits
(String(2 pow 60) ends in 847000, not the exact 846976) and switches to
exponent notation at 1e21 (String(1e21) is the text 1e+21); those are
floating-point behaviors outside this embedding, so every theorem below
that renders an integer carries the magnitude bound.  The fractional
branch (exact short decimal expansions) is exercised by no theorem. -/
def jsNumRepr (q : Rat) : String :=
  if q.den = 1 then toString q.num
  else
    let sign := if q.num < 0 then "-" else ""
    let a := q.num.natAbs
    let b := q.den
    match (List.range 40).find? (fun k => (10 ^ (k + 1)) % b = 0) with
    | some k₀ =>
        let k := k₀ + 1
        let m := a * 10 ^ k / b
        sign ++ toString (m / 10 ^ k) ++ "." ++ padZeros (toString (m % 10 ^ k)) k
    | none => sign ++ toString a ++ "%" ++ toString b

/-- Hexadecimal digit, lowercase. -/
def hexDigit (n : Nat) : Char :=
  if n < 10 then Char.ofNat (48 + n) else Char.ofNat (87 + n)

/-- JSON.stringify escaping of one character inside a string literal. -/
def jsonEscapeChar (c : Char) : String :=
  if c = '"' then "\\\""
  else if c = '\\' then "\\\\"
  else if c = Char.ofNat 8 then "\\b"
  else if c = Char.ofNat 12 then "\\f"
  else if c = '\n' then "\\n"
  else if c = Char.ofNat 13 then "\\r"
  else if c = '\t' then "\\t"
  else if c.toNat < 32 then
    "\\u00" ++ String.mk [hexDigit (c.toNat / 16), hexDigit (c.toNat % 16)]
  else String.singleton c

/-- JSON.stringify of a string: quoted with standard escaping. -/
def jsonQuote (s : String) : String :=
  "\"" ++ String.join (s.data.map jsonEscapeChar) ++ "\""

mutual
/-- ECMAScript ToString coercion of a value, as applied by a computed
property key.  Array values join their elements with commas, with null and
undefined elements rendered empty (Array.prototype.join); plain objects
render as the default object tag.  Function values never occur in decoder
output, which is the only place this coercion is applied. -/
def jsToString : JSValue → String
  | .jbool b => cond b "true" "false"
  | .jnum q => jsNumRepr q
  | .jstr s => s
  | .jnull => "null"
  | .jarr l => String.intercalate "," (jsToStringItems l)
  | .jobj _ => "[object Object]"
  | .jfun => "function"
  | .jundef => "undefined"
termination_by v => sizeOf v

/-- Element renderings for Array.prototype.join. -/
def jsToStringItems : List JSValue → List String
  | [] => []
  | .jnull :: vs => "" :: jsToStringItems vs
  | .jundef :: vs => "" :: jsToStringItems vs
  | v :: vs => jsToString v :: jsToStringItems vs
termination_by l => sizeOf l
end

/- ### The decoder toJSData (src/main.js lines 370..402) -/

/-- JS property write: overwrite in place if the key exists, else append. -/
def setProp : List (String × JSValue) → String → JSValue → List (String × JSValue)
  | [], k, v => [(k, v)]
  | (k₀, v₀) :: rest, k, v =>
    if k₀ = k then (k₀, v) :: rest else (k₀, v₀) :: setProp rest k v

/-- The object literal with computed key and spread used by the decoder
fold: first the new property, then every property of the accumulator
written over it in order. -/
def jsSpread (k : String) (v : JSValue) (acc : List (String × JSValue)) :
    List (String × JSValue) :=
  acc.foldl (fun o kv => setProp o kv.1 kv.2) [(k, v)]

mutual
/-- The decoder recur of toJSData.  A node with a nonempty exprs array is a
literal or list (more than one expr is an error); otherwise a node with a
sends array (even an empty one) decodes to an object by the reduce fold;
any other node decodes to null without further checks.  Errors are the
messages thrown by the JS code; the TypeError message models the crash of
recur(undefined) when a send has an empty data array. -/
def toJSData : Par → Except String JSValue
  | Par.mk (some (_ :: _ :: rest)) _ _ =>
      Except.error (toString (rest.length + 2) ++ " exprs not part of RHOCore")
  | Par.mk (some [ex]) _ _ =>
      match ex with
      | .g_bool b => Except.ok (JSValue.jbool b)
      | .g_int q => Except.ok (JSValue.jnum q)
      | .g_string s => Except.ok (JSValue.jstr s)
      | .e_list_body ps => do
          let vs ← toJSDataList ps
          Except.ok (JSValue.jarr vs)
  | Par.mk _ (some sends) _ => do
      let o ← toJSDataSends sends []
      Except.ok (JSValue.jobj o)
  | Par.mk _ _ _ => Except.ok JSValue.jnull
termination_by p => sizeOf p

/-- Pointwise decoding of a list of terms (ps.map recur). -/
def toJSDataList : List Par → Except String (List JSValue)
  | [] => Except.ok []
  | p :: ps => do
      let v ← toJSData p
      let vs ← toJSDataList ps
      Except.ok (v :: vs)
termination_by l => sizeOf l

/-- The reduce fold of the sends branch: each send contributes the object
literal jsSpread of its decoded channel (coerced to a string key) and its
first payload element over the accumulator so far. -/
def toJSDataSends : List (Par × List Par) → List (String × JSValue) →
    Except String (List (String × JSValue))
  | [], acc => Except.ok acc
  | (chanQuote, data) :: rest, acc => do
      let k ← toJSData chanQuote
      let v ← (match data with
        | p₀ :: _ => toJSData p₀
        | [] => Except.error "TypeError: Cannot read properties of undefined (reading 'exprs')")
      toJSDataSends rest (jsSpread (jsToString k) v acc)
termination_by l _ => sizeOf l
end

/- ### The encoder fromJSData (src/main.js lines 317..361) -/

/-- JS property read obj[k]: the value at the first occurrence of the key. -/
def lookupFirst : List (String × JSValue) → String → Option JSValue
  | [], _ => none
  | (k₀, v₀) :: rest, k => if k₀ = k then some v₀ else lookupFirst rest k

theorem sizeOf_lookupFirst : ∀ (l : List (String × JSValue)) (k : String) (v : JSValue),
    lookupFirst l k = some v → sizeOf v < sizeOf l := by
  intro l
  induction l with
  | nil => intro k v h; simp [lookupFirst] at h
  | cons kv rest ih =>
    intro k v h
    obtain ⟨k₀, v₀⟩ := kv
    rw [lookupFirst] at h
    by_cases hk : k₀ = k
    · rw [if_pos hk] at h
      injection h with h
      subst h
      simp
      omega
    · rw [if_neg hk] at h
      have := ih k v h
      simp
      omega

mutual
/-- The recur of fromJSData: booleans, numbers and strings become single
literals (any number goes into the g_int slot), null becomes the empty
object, arrays become a single e_list_body, and objects become a sends
list over the lexically sorted keys.  Functions and undefined raise the
UnsupportedType error of the JS code (no mapping to RHOCore). -/
def fromJSData : JSValue → Except String Par
  | .jbool b => Except.ok (expr1 (.g_bool b))
  | .jnum q => Except.ok (expr1 (.g_int q))
  | .jstr s => Except.ok (expr1 (.g_string s))
  | .jnull => Except.ok (Par.mk none none false)
  | .jarr items => do
      let ps ← fromJSList items
      Except.ok (expr1 (.e_list_body ps))
  | .jobj l => do
      let sends ← fromJSSends (insertionSortB jsLeB (l.map Prod.fst)) l
      Except.ok (Par.mk none (some sends) false)
  | .jfun => Except.error "no mapping to RHOCore for function"
  | .jundef => Except.error "no mapping to RHOCore for undefined"
termination_by v => (sizeOf v, 0)
decreasing_by
  all_goals
    apply Prod.Lex.left
    simp
    try omega

/-- items.map(recur) of the array case. -/
def fromJSList : List JSValue → Except String (List Par)
  | [] => Except.ok []
  | v :: vs => do
      let p ← fromJSData v
      let ps ← fromJSList vs
      Except.ok (p :: ps)
termination_by l => (sizeOf l, 0)
decreasing_by
  all_goals
    apply Prod.Lex.left
    simp
    try omega

/-- keysValues of fromJSData: one send per sorted key, the channel quoting
the key string, the payload the encoded obj[k].  A key that misses the
object (impossible for keys taken from it) reads undefined and raises the
UnsupportedType error, as recur(undefined) does. -/
def fromJSSends : List String → List (String × JSValue) →
    Except String (List (Par × List Par))
  | [], _ => Except.ok []
  | k :: ks, l => do
      let p ← (match _h : lookupFirst l k with
        | some v => fromJSData v
        | none => Except.error "no mapping to RHOCore for undefined")
      let rest ← fromJSSends ks l
      Except.ok ((expr1 (.g_string k), [p]) :: rest)
termination_by ks l => (sizeOf l, ks.length + 1)
decreasing_by
  · apply Prod.Lex.left
    exact sizeOf_lookupFirst l k v _h
  · apply Prod.Lex.right
    simp
end

/- ### The printer toRholang (src/main.js lines 411..444) -/

mutual
/-- The recur of toRholang.  Literals render by JSON.stringify, lists with
bracketed comma-space joins, sends as parallel-composed send processes in
entry order (all payload elements joined, with no arity check), anything
else as Nil. -/
def toRholang : Par → Except String String
  | Par.mk (some (_ :: _ :: rest)) _ _ =>
      Except.error (toString (rest.length + 2) ++ " exprs not part of RHOCore")
  | Par.mk (some [ex]) _ _ =>
      match ex with
      | .g_bool b => Except.ok (cond b "true" "false")
      | .g_int q => Except.ok (jsNumRepr q)
      | .g_string s => Except.ok (jsonQuote s)
      | .e_list_body ps => do
          let items ← toRholangList ps
          Except.ok ("[" ++ String.intercalate ", " items ++ "]")
  | Par.mk _ (some sends) _ => do
      let entries ← toRholangSends sends
      Except.ok (String.intercalate " | " entries)
  | Par.mk _ _ _ => Except.ok "Nil"
termination_by p => sizeOf p

/-- Pointwise rendering of a list of terms. -/
def toRholangList : List Par → Except String (List String)
  | [] => Except.ok []
  | p :: ps => do
      let r ← toRholang p
      let rs ← toRholangList ps
      Except.ok (r :: rs)
termination_by l => sizeOf l

/-- The ea helper of the sends branch: one send renders its quoted channel
and the comma-space join of all its payload elements. -/
def toRholangSends : List (Par × List Par) → Except String (List String)
  | [] => Except.ok []
  | (chanQuote, data) :: rest => do
      let c ← toRholang chanQuote
      let ds ← toRholangList data
      let es ← toRholangSends rest
      Except.ok (("@" ++ c ++ "!(" ++ String.intercalate ", " ds ++ ")") :: es)
termination_by l => sizeOf l
end

/- ### Canonical form of native values

The round-trip statement compares maps by their key/value pairs
irrespective of order; for values whose maps all have distinct keys that
is exactly equality of canonical forms, where the canonical form orders
every object level by its keys. -/

/-- Key order on object entries. -/
def pairLeB (a b : String × JSValue) : Bool := jsLeB a.1 b.1

mutual
/-- Canonical form: every object level sorted by key, recursively. -/
def canon : JSValue → JSValue
  | .jbool b => .jbool b
  | .jnum q => .jnum q
  | .jstr s => .jstr s
  | .jnull => .jnull
  | .jarr l => .jarr (canonList l)
  | .jobj l => .jobj (insertionSortB pairLeB (canonPairs l))
  | .jfun => .jfun
  | .jundef => .jundef
termination_by v => sizeOf v

/-- Pointwise canonical form of array elements. -/
def canonList : List JSValue → List JSValue
  | [] => []
  | v :: vs => canon v :: canonList vs
termination_by l => sizeOf l

/-- Pointwise canonical form of object entry values. -/
def canonPairs : List (String × JSValue) → List (String × JSValue)
  | [] => []
  | (k, v) :: ps => (k, canon v) :: canonPairs ps
termination_by l => sizeOf l
end

/- ### The supported native value shapes -/

/-- True when the key occurs in the association list. -/
def containsKeyB : List (String × JSValue) → String → Bool
  | [], _ => false
  | (k₀, _) :: rest, k => k₀ == k || containsKeyB rest k

/-- True when the keys of the association list are pairwise distinct, as
the keys of a genuine JS object always are. -/
def keyNodupB : List (String × JSValue) → Bool
  | [] => true
  | (k, _) :: rest => !containsKeyB rest k && keyNodupB rest

mutual
/-- The supported native shapes of the spec: booleans, integers, strings,
null, arrays of supported values and plain string-keyed maps of supported
values (with the distinct keys of a genuine object). -/
def SupportedB : JSValue → Bool
  | .jbool _ => true
  | .jnum q => q.den == 1
  | .jstr _ => true
  | .jnull => true
  | .jarr l => SupportedListB l
  | .jobj l => keyNodupB l && SupportedPairsB l
  | .jfun => false
  | .jundef => false
termination_by v => sizeOf v

/-- All array elements supported. -/
def SupportedListB : List JSValue → Bool
  | [] => true
  | v :: vs => SupportedB v && SupportedListB vs
termination_by l => sizeOf l

/-- All object entry values supported. -/
def SupportedPairsB : List (String × JSValue) → Bool
  | [] => true
  | (_, v) :: ps => SupportedB v && SupportedPairsB ps
termination_by l => sizeOf l
end

/- ### The wire codec toByteArray (src/main.js lines 452..459) -/

mutual
/-- Modelled from the spec: the structural validation Par.verify of the
external protobuf message class (protobuf/messages, not part of the
transcoder source).  protobufjs verify returns an error message string for
a term that does not conform to the wire schema and null for a conforming
term; over the term universe embedded here the only violation the schema
can detect is a g_int slot holding a non-integral value (the field is a
sint64). -/
def parVerify : Par → Option String
  | Par.mk eo so _ =>
      (match eo with
       | none => none
       | some es => exprsVerify es) <|>
      (match so with
       | none => none
       | some ss => sendsVerify ss)
termination_by p => sizeOf p

/-- Verification of an exprs array. -/
def exprsVerify : List (Expr Par) → Option String
  | [] => none
  | .g_int q :: es => (if q.den = 1 then none else some "g_int: integer expected") <|> exprsVerify es
  | .e_list_body ps :: es => parsVerify ps <|> exprsVerify es
  | _ :: es => exprsVerify es
termination_by l => sizeOf l

/-- Verification of a ps array. -/
def parsVerify : List Par → Option String
  | [] => none
  | p :: ps => parVerify p <|> parsVerify ps
termination_by l => sizeOf l

/-- Verification of a sends array. -/
def sendsVerify : List (Par × List Par) → Option String
  | [] => none
  | (chanQuote, data) :: rest => parVerify chanQuote <|> parsVerify data <|> sendsVerify rest
termination_by l => sizeOf l
end

mutual
/-- Modelled from the spec: deterministic serialization of a term under
the external wire schema.  The actual protobuf byte layout lives outside
the transcoder source; this stand-in is a fixed structural encoding, which
is all the theorems below rely on (the codec is total and deterministic). -/
def parEncode : Par → List Nat
  | Par.mk eo so x =>
      cond x 1 0 ::
        ((match eo with
          | none => [0]
          | some es => 1 :: es.length :: exprsEncode es) ++
         (match so with
          | none => [0]
          | some ss => 1 :: ss.length :: sendsEncode ss))
termination_by p => sizeOf p

/-- Serialization of an exprs array. -/
def exprsEncode : List (Expr Par) → List Nat
  | [] => []
  | .g_bool b :: es => 0 :: cond b 1 0 :: exprsEncode es
  | .g_int q :: es => 1 :: q.num.natAbs :: cond (q.num < 0) 1 0 :: q.den :: exprsEncode es
  | .g_string s :: es => (2 :: s.length :: s.data.map Char.toNat) ++ exprsEncode es
  | .e_list_body ps :: es => (3 :: ps.length :: parsEncode ps) ++ exprsEncode es
termination_by l => sizeOf l

/-- Serialization of a ps array. -/
def parsEncode : List Par → List Nat
  | [] => []
  | p :: ps => parEncode p ++ parsEncode ps
termination_by l => sizeOf l

/-- Serialization of a sends array. -/
def sendsEncode : List (Par × List Par) → List Nat
  | [] => []
  | (chanQuote, data) :: rest =>
      parEncode chanQuote ++ (data.length :: parsEncode data) ++ sendsEncode rest
termination_by l => sizeOf l
end

/-- toByteArray of src/main.js: it invokes the schema validation
Par.verify but discards the returned error message (protobufjs verify
returns rather than throws), then serializes unconditionally. -/
def toByteArray (termObj : Par) : List Nat :=
  let _ := parVerify termObj
  parEncode termObj

/- ### Basic facts about the embedded operations -/

theorem toJSData_quote_str (k : String) :
    toJSData (expr1 (.g_string k)) = Except.ok (JSValue.jstr k) := by
  simp [toJSData, expr1]

theorem jsToString_str (k : String) : jsToString (JSValue.jstr k) = k := by
  simp [jsToString]

theorem containsKeyB_iff (l : List (String × JSValue)) (k : String) :
    containsKeyB l k = true ↔ k ∈ l.map Prod.fst := by
  induction l with
  | nil => simp [containsKeyB]
  | cons kv rest ih =>
    obtain ⟨k₀, v₀⟩ := kv
    simp [containsKeyB, ih, beq_iff_eq]
    constructor
    · rintro (h | h)
      · exact Or.inl h.symm
      · exact Or.inr h
    · rintro (h | h)
      · exact Or.inl h.symm
      · exact Or.inr h

theorem keyNodupB_iff (l : List (String × JSValue)) :
    keyNodupB l = true ↔ (l.map Prod.fst).Nodup := by
  induction l with
  | nil => simp [keyNodupB]
  | cons kv rest ih =>
    obtain ⟨k₀, v₀⟩ := kv
    simp only [keyNodupB, Bool.and_eq_true, ih, List.map_cons, List.nodup_cons,
      Bool.not_eq_true']
    constructor
    · rintro ⟨h1, h2⟩
      refine ⟨?_, h2⟩
      intro hm
      rw [(Bool.not_eq_true (containsKeyB rest k₀)).symm] at h1
      exact absurd ((containsKeyB_iff rest k₀).mpr hm) (by simpa using h1)
    · rintro ⟨h1, h2⟩
      refine ⟨?_, h2⟩
      rw [← Bool.not_eq_true (containsKeyB rest k₀)]
      intro hc
      exact h1 ((containsKeyB_iff rest k₀).mp hc)

theorem mem_keys_lookupFirst (l : List (String × JSValue)) (k : String)
    (h : k ∈ l.map Prod.fst) : ∃ v, lookupFirst l k = some v := by
  induction l with
  | nil => simp at h
  | cons kv rest ih =>
    obtain ⟨k₀, v₀⟩ := kv
    by_cases hk : k₀ = k
    · exact ⟨v₀, by simp [lookupFirst, hk]⟩
    · rw [List.map_cons, List.mem_cons] at h
      rcases h with h | h
      · exact absurd h.symm hk
      · obtain ⟨v, hv⟩ := ih h
        exact ⟨v, by simp [lookupFirst, hk, hv]⟩

theorem lookupFirst_supported (l : List (String × JSValue)) (k : String) (v : JSValue)
    (hs : SupportedPairsB l = true) (hl : lookupFirst l k = some v) :
    SupportedB v = true := by
  induction l with
  | nil => simp [lookupFirst] at hl
  | cons kv rest ih =>
    obtain ⟨k₀, v₀⟩ := kv
    rw [SupportedPairsB] at hs
    rw [Bool.and_eq_true] at hs
    rw [lookupFirst] at hl
    by_cases hk : k₀ = k
    · rw [if_pos hk] at hl
      injection hl with hl
      subst hl
      exact hs.1
    · rw [if_neg hk] at hl
      exact ih hs.2 hl

theorem lookupFirst_self (l : List (String × JSValue)) (hnd : (l.map Prod.fst).Nodup) :
    ∀ kv ∈ l, lookupFirst l kv.1 = some kv.2 := by
  induction l with
  | nil => simp
  | cons kv₀ rest ih =>
    obtain ⟨k₀, v₀⟩ := kv₀
    rw [List.map_cons, List.nodup_cons] at hnd
    intro kv hm
    rcases List.mem_cons.mp hm with hm | hm
    · subst hm
      simp [lookupFirst]
    · have hne : k₀ ≠ kv.1 := by
        intro he
        exact hnd.1 (he ▸ (List.mem_map.mpr ⟨kv, hm, rfl⟩))
      rw [lookupFirst, if_neg hne]
      exact ih hnd.2 kv hm

theorem canonPairs_eq_map (l : List (String × JSValue)) :
    canonPairs l = l.map (fun kv => (kv.1, canon kv.2)) := by
  induction l with
  | nil => simp [canonPairs]
  | cons kv rest ih =>
    obtain ⟨k, v⟩ := kv
    rw [canonPairs, ih]
    rfl

theorem canonList_eq_map (l : List JSValue) : canonList l = l.map canon := by
  induction l with
  | nil => simp [canonList]
  | cons v rest ih => rw [canonList, ih]; rfl

/- ### The decoder fold on sends with fresh keys -/

theorem setProp_append (o : List (String × JSValue)) (k : String) (v : JSValue)
    (h : ∀ kv ∈ o, kv.1 ≠ k) : setProp o k v = o ++ [(k, v)] := by
  induction o with
  | nil => simp [setProp]
  | cons kv₀ rest ih =>
    obtain ⟨k₀, v₀⟩ := kv₀
    rw [setProp, if_neg (h (k₀, v₀) (List.mem_cons_self _ _))]
    rw [ih (fun kv hm => h kv (List.mem_cons_of_mem _ hm))]
    simp

theorem foldl_setProp_append (acc : List (String × JSValue)) :
    ∀ base : List (String × JSValue),
    (∀ kv ∈ acc, ∀ kv₀ ∈ base, kv₀.1 ≠ kv.1) →
    (acc.map Prod.fst).Nodup →
    acc.foldl (fun o kv => setProp o kv.1 kv.2) base = base ++ acc := by
  induction acc with
  | nil => intro base _ _; simp
  | cons kv rest ih =>
    intro base hdisj hnd
    obtain ⟨k₁, v₁⟩ := kv
    rw [List.map_cons, List.nodup_cons] at hnd
    rw [List.foldl_cons]
    have hstep : setProp base k₁ v₁ = base ++ [(k₁, v₁)] :=
      setProp_append base k₁ v₁ (fun kv₀ hm => hdisj (k₁, v₁) (List.mem_cons_self _ _) kv₀ hm)
    rw [hstep, ih (base ++ [(k₁, v₁)]) ?_ hnd.2]
    · simp
    · intro kv hm kv₀ hm₀
      rcases List.mem_append.mp hm₀ with hm₀ | hm₀
      · exact hdisj kv (List.mem_cons_of_mem _ hm) kv₀ hm₀
      · rcases List.mem_singleton.mp hm₀ with rfl
        intro he
        exact hnd.1 (he ▸ (List.mem_map.mpr ⟨kv, hm, rfl⟩))

theorem jsSpread_fresh (k : String) (v : JSValue) (acc : List (String × JSValue))
    (hfresh : ∀ kv ∈ acc, kv.1 ≠ k) (hnd : (acc.map Prod.fst).Nodup) :
    jsSpread k v acc = (k, v) :: acc := by
  rw [jsSpread, foldl_setProp_append acc [(k, v)] ?_ hnd]
  · simp
  · intro kv hm kv₀ hm₀
    rcases List.mem_singleton.mp hm₀ with rfl
    exact fun he => (hfresh kv hm) he.symm

theorem toJSDataSends_spec (pl : List (String × Par × JSValue)) :
    ∀ acc : List (String × JSValue),
    (∀ e ∈ pl, toJSData e.2.1 = Except.ok e.2.2) →
    (pl.map Prod.fst).Nodup →
    (∀ e ∈ pl, ∀ kv ∈ acc, kv.1 ≠ e.1) →
    (acc.map Prod.fst).Nodup →
    toJSDataSends (pl.map (fun e => (expr1 (.g_string e.1), [e.2.1]))) acc =
      Except.ok ((pl.map (fun e => (e.1, e.2.2))).reverse ++ acc) := by
  induction pl with
  | nil => intro acc _ _ _ _; simp [toJSDataSends]
  | cons e rest ih =>
    intro acc hdec hnd hdisj haccnd
    obtain ⟨k, t, w⟩ := e
    rw [List.map_cons, List.nodup_cons] at hnd
    rw [List.map_cons, toJSDataSends, toJSData_quote_str]
    simp only [except_ok_bind]
    rw [hdec (k, t, w) (List.mem_cons_self _ _)]
    simp only [except_ok_bind, jsToString_str]
    have hspread : jsSpread k w acc = (k, w) :: acc :=
      jsSpread_fresh k w acc
        (fun kv hm => hdisj (k, t, w) (List.mem_cons_self _ _) kv hm) haccnd
    rw [hspread]
    rw [ih ((k, w) :: acc) (fun e hm => hdec e (List.mem_cons_of_mem _ hm)) hnd.2 ?_ ?_]
    · simp
    · intro e hm kv hkv
      rcases List.mem_cons.mp hkv with rfl | hkv
      · intro he
        exact hnd.1 (he ▸ (List.mem_map.mpr ⟨e, hm, rfl⟩))
      · exact hdisj e (List.mem_cons_of_mem _ hm) kv hkv
    · rw [List.map_cons, List.nodup_cons]
      refine ⟨?_, haccnd⟩
      intro hm
      rcases List.mem_map.mp hm with ⟨kv, hkv, hfst⟩
      exact (hdisj (k, t, w) (List.mem_cons_self _ _) kv hkv) hfst

/- ### The encoder sends list -/

theorem fromJSSends_shape : ∀ (ks : List String) (l : List (String × JSValue))
    (sends : List (Par × List Par)), fromJSSends ks l = Except.ok sends →
    ∃ pairs : List (String × Par),
      sends = pairs.map (fun kt => (expr1 (.g_string kt.1), [kt.2])) ∧
      pairs.map Prod.fst = ks := by
  intro ks
  induction ks with
  | nil =>
    intro l sends h
    rw [fromJSSends] at h
    injection h with h
    exact ⟨[], by simp [h.symm]⟩
  | cons k ks ih =>
    intro l sends h
    rw [fromJSSends] at h
    cases hlk : lookupFirst l k with
    | none =>
      rw [hlk] at h
      simp at h
    | some v =>
      rw [hlk] at h
      simp only [except_ok_bind] at h
      cases hfv : fromJSData v with
      | error e => rw [hfv] at h; simp at h
      | ok p =>
        rw [hfv] at h
        simp only [except_ok_bind] at h
        cases hrest : fromJSSends ks l with
        | error e => rw [hrest] at h; simp at h
        | ok rest =>
          rw [hrest] at h
          simp only [except_ok_bind] at h
          injection h with h
          obtain ⟨pairs, hp1, hp2⟩ := ih l rest hrest
          refine ⟨(k, p) :: pairs, ?_, ?_⟩
          · rw [← h, hp1]
            simp
          · simp [hp2]

/-- The sorted key list of the encoder is strictly ascending when the keys
are distinct. -/
theorem sorted_keys_strict (ks : List String) (hnd : ks.Nodup) :
    (insertionSortB jsLeB ks).Pairwise (fun a b => jsLtB a b = true) := by
  have hle : (insertionSortB jsLeB ks).Pairwise (fun a b => jsLeB a b = true) :=
    insertionSortB_pairwise jsLeB jsLeB_total jsLeB_trans ks
  have hperm : (insertionSortB jsLeB ks).Perm ks := insertionSortB_perm jsLeB ks
  have hnd2 : (insertionSortB jsLeB ks).Nodup := hperm.nodup_iff.mpr hnd
  have hne : (insertionSortB jsLeB ks).Pairwise (fun a b => a ≠ b) := hnd2
  have hand := List.Pairwise.and hle hne
  exact hand.imp (fun h => jsLtB_of_le_ne _ _ h.1 h.2)

theorem pairLeB_total (a b : String × JSValue) : pairLeB a b = true ∨ pairLeB b a = true :=
  jsLeB_total a.1 b.1

theorem pairLeB_trans (a b c : String × JSValue) (h1 : pairLeB a b = true)
    (h2 : pairLeB b c = true) : pairLeB a c = true :=
  jsLeB_trans a.1 b.1 c.1 h1 h2

/-- Sorted object entries with distinct keys are strictly ascending. -/
theorem strict_sorted_pairs (X : List (String × JSValue)) (hnd : (X.map Prod.fst).Nodup) :
    (insertionSortB pairLeB X).Pairwise (fun a b => jsLtB a.1 b.1 = true) := by
  have hle : (insertionSortB pairLeB X).Pairwise (fun a b => pairLeB a b = true) :=
    insertionSortB_pairwise pairLeB pairLeB_total pairLeB_trans X
  have hperm : (insertionSortB pairLeB X).Perm X := insertionSortB_perm pairLeB X
  have hndk : ((insertionSortB pairLeB X).map Prod.fst).Nodup :=
    ((hperm.map Prod.fst).nodup_iff).mpr hnd
  have hne : (insertionSortB pairLeB X).Pairwise (fun a b => a.1 ≠ b.1) := by
    have := List.pairwise_map.mp hndk
    exact this
  have hand := List.Pairwise.and hle hne
  exact hand.imp (fun h => jsLtB_of_le_ne _ _ h.1 h.2)

/-- Sorting object entries is permutation-invariant when the keys are
distinct: there is only one strictly sorted arrangement. -/
theorem sortPairs_eq_of_perm (X Y : List (String × JSValue)) (hperm : X.Perm Y)
    (hnd : (X.map Prod.fst).Nodup) :
    insertionSortB pairLeB X = insertionSortB pairLeB Y := by
  have hpermX : (insertionSortB pairLeB X).Perm X := insertionSortB_perm pairLeB X
  have hpermY : (insertionSortB pairLeB Y).Perm Y := insertionSortB_perm pairLeB Y
  have hXY : (insertionSortB pairLeB X).Perm (insertionSortB pairLeB Y) :=
    (hpermX.trans hperm).trans hpermY.symm
  have hndY : (Y.map Prod.fst).Nodup := (hperm.map Prod.fst).nodup_iff.mp hnd
  apply pairwise_asymm_perm_eq (fun a b : String × JSValue => jsLtB a.1 b.1 = true)
  · intro a b hab hba
    have := jsLtB_asymm a.1 b.1 hab
    rw [this] at hba
    exact Bool.false_ne_true hba
  · exact strict_sorted_pairs X hnd
  · exact strict_sorted_pairs Y hndY
  · exact hXY


/- ### Round trip -/

/-- The value a JS property read obj[k] yields: the stored value, or
undefined when the key is absent. -/
def valueD (l : List (String × JSValue)) (k : String) : JSValue :=
  (lookupFirst l k).getD JSValue.jundef

theorem roundtripList (items : List JSValue)
    (HV : ∀ v ∈ items, SupportedB v = true →
      ∃ t w, fromJSData v = Except.ok t ∧ toJSData t = Except.ok w ∧ canon w = canon v)
    (hs : SupportedListB items = true) :
    ∃ ps ws, fromJSList items = Except.ok ps ∧ toJSDataList ps = Except.ok ws ∧
      canonList ws = canonList items := by
  induction items with
  | nil => exact ⟨[], [], by simp [fromJSList], by simp [toJSDataList], rfl⟩
  | cons v vs ih =>
    rw [SupportedListB, Bool.and_eq_true] at hs
    obtain ⟨t, w, ht, hw, hc⟩ := HV v (List.mem_cons_self _ _) hs.1
    obtain ⟨ps, ws, hps, hws, hcs⟩ :=
      ih (fun u hm hsu => HV u (List.mem_cons_of_mem _ hm) hsu) hs.2
    refine ⟨t :: ps, w :: ws, ?_, ?_, ?_⟩
    · rw [fromJSList, ht]
      simp only [except_ok_bind]
      rw [hps]
      rfl
    · rw [toJSDataList, hw]
      simp only [except_ok_bind]
      rw [hws]
      rfl
    · rw [canonList, canonList, hc, hcs]

theorem fromJSSends_build (l : List (String × JSValue))
    (HV : ∀ k v, lookupFirst l k = some v →
      ∃ t w, fromJSData v = Except.ok t ∧ toJSData t = Except.ok w ∧ canon w = canon v) :
    ∀ ks : List String, (∀ k ∈ ks, k ∈ l.map Prod.fst) →
    ∃ pl : List (String × Par × JSValue), pl.map Prod.fst = ks ∧
      fromJSSends ks l = Except.ok (pl.map (fun e => (expr1 (.g_string e.1), [e.2.1]))) ∧
      (∀ e ∈ pl, toJSData e.2.1 = Except.ok e.2.2) ∧
      (∀ e ∈ pl, canon e.2.2 = canon (valueD l e.1)) := by
  intro ks
  induction ks with
  | nil => exact fun _ => ⟨[], rfl, by rw [fromJSSends]; rfl, by simp, by simp⟩
  | cons k ks ih =>
    intro hmem
    obtain ⟨v, hv⟩ := mem_keys_lookupFirst l k (hmem k (List.mem_cons_self _ _))
    obtain ⟨t, w, ht, hw, hc⟩ := HV k v hv
    obtain ⟨pl, hpl1, hpl2, hpl3, hpl4⟩ := ih (fun u hm => hmem u (List.mem_cons_of_mem _ hm))
    refine ⟨(k, t, w) :: pl, by simp [hpl1], ?_, ?_, ?_⟩
    · rw [fromJSSends, hv]
      simp only [except_ok_bind]
      rw [ht]
      simp only [except_ok_bind]
      rw [hpl2]
      rfl
    · intro e hm
      rcases List.mem_cons.mp hm with rfl | hm
      · exact hw
      · exact hpl3 e hm
    · intro e hm
      rcases List.mem_cons.mp hm with rfl | hm
      · have hvd : valueD l k = v := by
          unfold valueD
          rw [hv]
          rfl
        rw [hvd]
        exact hc
      · exact hpl4 e hm

/-- Round trip: decoding an encoded supported value yields a value with
the same canonical form (equal maps up to key order, equal elsewhere). -/
theorem roundtrip_main : ∀ (n : Nat) (v : JSValue), sizeOf v ≤ n → SupportedB v = true →
    ∃ t w, fromJSData v = Except.ok t ∧ toJSData t = Except.ok w ∧ canon w = canon v := by
  intro n
  induction n using Nat.strong_induction_on with
  | _ n ih =>
    intro v hsz hsup
    cases v with
    | jbool b =>
      refine ⟨expr1 (.g_bool b), .jbool b, by rw [fromJSData], ?_, rfl⟩
      simp [toJSData, expr1]
    | jnum q =>
      refine ⟨expr1 (.g_int q), .jnum q, by rw [fromJSData], ?_, rfl⟩
      simp [toJSData, expr1]
    | jstr s =>
      refine ⟨expr1 (.g_string s), .jstr s, by rw [fromJSData], ?_, rfl⟩
      simp [toJSData, expr1]
    | jnull =>
      refine ⟨Par.mk none none false, .jnull, by rw [fromJSData], ?_, rfl⟩
      simp [toJSData]
    | jfun => rw [SupportedB] at hsup; exact absurd hsup Bool.false_ne_true
    | jundef => rw [SupportedB] at hsup; exact absurd hsup Bool.false_ne_true
    | jarr items =>
      rw [SupportedB] at hsup
      have hszl : sizeOf items < n := by
        have : sizeOf (JSValue.jarr items) = 1 + sizeOf items := by simp
        omega
      have HV : ∀ v ∈ items, SupportedB v = true → ∃ t w, fromJSData v = Except.ok t ∧
          toJSData t = Except.ok w ∧ canon w = canon v := by
        intro u hm hsu
        have hu : sizeOf u < sizeOf items := List.sizeOf_lt_of_mem hm
        exact ih (sizeOf u) (by omega) u (le_refl _) hsu
      obtain ⟨ps, ws, hps, hws, hcs⟩ := roundtripList items HV hsup
      refine ⟨expr1 (.e_list_body ps), .jarr ws, ?_, ?_, ?_⟩
      · rw [fromJSData, hps]
        rfl
      · simp only [toJSData, expr1]
        rw [hws]
        rfl
      · simp only [canon]
        rw [hcs]
    | jobj l =>
      rw [SupportedB, Bool.and_eq_true] at hsup
      obtain ⟨hnd, hpairs⟩ := hsup
      rw [keyNodupB_iff] at hnd
      have hszl : sizeOf l < n := by
        have : sizeOf (JSValue.jobj l) = 1 + sizeOf l := by simp
        omega
      have HV : ∀ k v, lookupFirst l k = some v →
          ∃ t w, fromJSData v = Except.ok t ∧ toJSData t = Except.ok w ∧
            canon w = canon v := by
        intro k v hv
        have h1 : sizeOf v < sizeOf l := sizeOf_lookupFirst l k v hv
        have h2 : SupportedB v = true := lookupFirst_supported l k v hpairs hv
        exact ih (sizeOf v) (by omega) v (le_refl _) h2
      have hks : ∀ k ∈ insertionSortB jsLeB (l.map Prod.fst), k ∈ l.map Prod.fst :=
        fun k hm => (insertionSortB_perm jsLeB (l.map Prod.fst)).mem_iff.mp hm
      obtain ⟨pl, hpl1, hpl2, hpl3, hpl4⟩ := fromJSSends_build l HV _ hks
      have hksnd : (insertionSortB jsLeB (l.map Prod.fst)).Nodup :=
        (insertionSortB_perm jsLeB (l.map Prod.fst)).nodup_iff.mpr hnd
      have hplnd : (pl.map Prod.fst).Nodup := by rw [hpl1]; exact hksnd
      have hdec := toJSDataSends_spec pl [] hpl3 hplnd (by simp) (by simp)
      refine ⟨Par.mk none (some (pl.map (fun e => (expr1 (.g_string e.1), [e.2.1])))) false,
        .jobj ((pl.map (fun e => (e.1, e.2.2))).reverse ++ []), ?_, ?_, ?_⟩
      · rw [fromJSData, hpl2]
        rfl
      · simp only [toJSData]
        rw [hdec]
        rfl
      · simp only [canon]
        have hargperm : (canonPairs ((pl.map (fun e => (e.1, e.2.2))).reverse ++ [])).Perm
            (canonPairs l) := by
          rw [canonPairs_eq_map, canonPairs_eq_map]
          rw [List.append_nil]
          have e1 : ((pl.map (fun e => (e.1, e.2.2))).reverse).map
              (fun kv => (kv.1, canon kv.2)) =
              ((pl.map (fun e => (e.1, e.2.2))).map (fun kv => (kv.1, canon kv.2))).reverse :=
            List.map_reverse _ _
          rw [e1, List.map_map]
          have e2 : pl.map ((fun kv :
              String × JSValue => (kv.1, canon kv.2)) ∘ (fun e => (e.1, e.2.2))) =
              pl.map (fun e => ((fun k => (k, canon (valueD l k))) e.1)) := by
            apply List.map_congr_left
            intro e hm
            simp only [Function.comp]
            rw [hpl4 e hm]
          rw [e2]
          have e3 : l.map (fun kv => (kv.1, canon kv.2)) =
              l.map (fun kv => ((fun k => (k, canon (valueD l k))) kv.1)) := by
            apply List.map_congr_left
            intro kv hm
            have hvd : valueD l kv.1 = kv.2 := by
              unfold valueD
              rw [lookupFirst_self l hnd kv hm]
              rfl
            show (kv.1, canon kv.2) = (kv.1, canon (valueD l kv.1))
            rw [hvd]
          rw [e3]
          have e4 : pl.map (fun e => ((fun k => (k, canon (valueD l k))) e.1)) =
              (pl.map Prod.fst).map (fun k => (k, canon (valueD l k))) := by
            rw [List.map_map]
            rfl
          have e5 : l.map (fun kv => ((fun k => (k, canon (valueD l k))) kv.1)) =
              (l.map Prod.fst).map (fun k => (k, canon (valueD l k))) := by
            rw [List.map_map]
            rfl
          rw [e4, e5, hpl1]
          exact (List.reverse_perm _).trans
            ((insertionSortB_perm jsLeB (l.map Prod.fst)).map _)
        have hndD : ((canonPairs ((pl.map (fun e => (e.1, e.2.2))).reverse ++ [])).map
            Prod.fst).Nodup := by
          rw [canonPairs_eq_map, List.append_nil, List.map_map]
          have : ((pl.map (fun e => (e.1, e.2.2))).reverse).map
              (Prod.fst ∘ (fun kv : String × JSValue => (kv.1, canon kv.2))) =
              ((pl.map (fun e => (e.1, e.2.2))).reverse).map Prod.fst := rfl
          rw [this]
          have e6 : ((pl.map (fun e => (e.1, e.2.2))).reverse).map Prod.fst =
              ((pl.map (fun e => (e.1, e.2.2))).map Prod.fst).reverse :=
            List.map_reverse _ _
          rw [e6, List.map_map]
          have e7 : pl.map (Prod.fst ∘ (fun e : String × Par × JSValue => (e.1, e.2.2))) =
              pl.map Prod.fst := rfl
          rw [e7]
          exact List.nodup_reverse.mpr hplnd
        rw [sortPairs_eq_of_perm _ _ hargperm hndD]

theorem jsSpread_nil (k : String) (v : JSValue) : jsSpread k v [] = [(k, v)] := by
  simp [jsSpread]

/- ### Claims -/

/-- C1: for every native value built from booleans, integers, strings, null,
arrays of supported values and string-keyed maps of supported values, with
arbitrary nesting, decoding the encoding (toJSData of fromJSData) yields a
value structurally equal to the original, where map equality is by
key/value pairs irrespective of key order — formalized as equality of
canonical forms, which for values whose maps all have distinct keys is
exactly pairwise map equality. -/
theorem C1_round_trip (v : JSValue) (hsup : SupportedB v = true) :
    ∃ t w, fromJSData v = Except.ok t ∧ toJSData t = Except.ok w ∧ canon w = canon v :=
  roundtrip_main (sizeOf v) v (le_refl _) hsup

/-- Witness for C1 at the nested map of spec scenario 6. -/
theorem C1_round_trip_witness :
    SupportedB (JSValue.jobj [("x", JSValue.jobj [("y", JSValue.jnum 5)])]) = true ∧
    ∃ t w, fromJSData (JSValue.jobj [("x", JSValue.jobj [("y", JSValue.jnum 5)])]) =
        Except.ok t ∧ toJSData t = Except.ok w ∧
      canon w = canon (JSValue.jobj [("x", JSValue.jobj [("y", JSValue.jnum 5)])]) :=
  ⟨by simp [SupportedB, SupportedPairsB, keyNodupB, containsKeyB],
   C1_round_trip _ (by simp [SupportedB, SupportedPairsB, keyNodupB, containsKeyB])⟩

/-- C2: encoding a string-keyed map (distinct keys, as JS objects have)
yields a ParallelSends node whose send entries are the Str-literal
channels of the keys with single payloads, in strictly ascending JS
lexical (UTF-16) order of the key text. -/
theorem C2_canonical_key_order (l : List (String × JSValue)) (t : Par)
    (hnd : keyNodupB l = true) (henc : fromJSData (JSValue.jobj l) = Except.ok t) :
    ∃ pairs : List (String × Par),
      t = Par.mk none (some (pairs.map (fun kt => (expr1 (.g_string kt.1), [kt.2])))) false ∧
      (pairs.map Prod.fst).Pairwise (fun a b => jsLtB a b = true) := by
  rw [fromJSData] at henc
  cases hs : fromJSSends (insertionSortB jsLeB (l.map Prod.fst)) l with
  | error e => rw [hs] at henc; simp at henc
  | ok sends =>
    rw [hs] at henc
    simp only [except_ok_bind] at henc
    injection henc with henc
    obtain ⟨pairs, hp1, hp2⟩ := fromJSSends_shape _ l sends hs
    refine ⟨pairs, by rw [← henc, hp1], ?_⟩
    rw [hp2]
    exact sorted_keys_strict (l.map Prod.fst) ((keyNodupB_iff l).mp hnd)

/-- Witness for C2 at the map of spec scenario 4. -/
theorem C2_canonical_key_order_witness :
    keyNodupB [("b", JSValue.jnum 1), ("a", JSValue.jnum 2)] = true ∧
    fromJSData (JSValue.jobj [("b", JSValue.jnum 1), ("a", JSValue.jnum 2)]) =
      Except.ok (Par.mk none (some [(expr1 (.g_string "a"), [expr1 (.g_int 2)]),
        (expr1 (.g_string "b"), [expr1 (.g_int 1)])]) false) ∧
    ∃ pairs : List (String × Par),
      Par.mk none (some [(expr1 (.g_string "a"), [expr1 (.g_int 2)]),
        (expr1 (.g_string "b"), [expr1 (.g_int 1)])]) false =
        Par.mk none (some (pairs.map (fun kt => (expr1 (.g_string kt.1), [kt.2])))) false ∧
      (pairs.map Prod.fst).Pairwise (fun a b => jsLtB a b = true) := by
  refine ⟨by decide, ?_, ?_⟩
  · simp [fromJSData, fromJSSends, lookupFirst, insertionSortB, orderedInsertB, jsLeB, jsLtB,
      utf16, charUnits, unitsLtB]
  · exact C2_canonical_key_order [("b", JSValue.jnum 1), ("a", JSValue.jnum 2)] _ (by decide)
      (by simp [fromJSData, fromJSSends, lookupFirst, insertionSortB, orderedInsertB, jsLeB,
        jsLtB, utf16, charUnits, unitsLtB])

/-- C3: the printer renders encoder-producible nodes by the fixed rules:
boolean and string literals in JSON notation (strings quoted and
escaped), integer literals in exact decimal on the double-exact range of
magnitude below 2 to the 53 (above it ECMAScript shortest-round-trip and
exponent-notation rendering applies, floating-point behavior outside
this embedding), lists as a bracketed comma-space join, each send entry
as an at-channel bang with its single payload rendering, entries joined
in AST order by the parallel operator, and the empty node as Nil; in
particular the spec scenario map prints as two sends with the key a
before b. -/
theorem C3_toRholang_rendering :
    (∀ (b : Bool) (so : Option (List (Par × List Par))) (x : Bool),
      toRholang (Par.mk (some [.g_bool b]) so x) = Except.ok (cond b "true" "false")) ∧
    (∀ (n : ℤ) (so : Option (List (Par × List Par))) (x : Bool), n.natAbs < 2 ^ 53 →
      toRholang (Par.mk (some [.g_int (n : ℚ)]) so x) = Except.ok (toString n)) ∧
    (∀ (s : String) (so : Option (List (Par × List Par))) (x : Bool),
      toRholang (Par.mk (some [.g_string s]) so x) = Except.ok (jsonQuote s)) ∧
    (∀ (ps : List Par) (items : List String) (so : Option (List (Par × List Par))) (x : Bool),
      toRholangList ps = Except.ok items →
      toRholang (Par.mk (some [.e_list_body ps]) so x) =
        Except.ok ("[" ++ String.intercalate ", " items ++ "]")) ∧
    (∀ (c p : Par) (rest : List (Par × List Par)) (cR pR : String) (restR : List String)
        (x : Bool), toRholang c = Except.ok cR → toRholang p = Except.ok pR →
      toRholangSends rest = Except.ok restR →
      toRholang (Par.mk none (some ((c, [p]) :: rest)) x) =
        Except.ok (String.intercalate " | " (("@" ++ cR ++ "!(" ++ pR ++ ")") :: restR))) ∧
    (∀ x : Bool, toRholang (Par.mk none none x) = Except.ok "Nil") ∧
    (∃ t, fromJSData (JSValue.jobj [("b", JSValue.jnum 1), ("a", JSValue.jnum 2)]) =
        Except.ok t ∧ toRholang t = Except.ok "@\"a\"!(2) | @\"b\"!(1)") := by
  refine ⟨?_, ?_, ?_, ?_, ?_, ?_, ?_⟩
  · intro b so x
    simp [toRholang]
  · intro n so x _hn
    simp [toRholang, jsNumRepr, Rat.den_intCast, Rat.num_intCast]
  · intro s so x
    simp [toRholang]
  · intro ps items so x h
    simp only [toRholang]
    rw [h]
    rfl
  · intro c p rest cR pR restR x h1 h2 h3
    simp only [toRholang, toRholangSends, toRholangList]
    rw [h1]
    simp only [except_ok_bind]
    rw [h2]
    simp only [except_ok_bind]
    rw [h3]
    rfl
  · intro x
    simp [toRholang]
  · refine ⟨Par.mk none (some [(expr1 (.g_string "a"), [expr1 (.g_int 2)]),
      (expr1 (.g_string "b"), [expr1 (.g_int 1)])]) false, ?_, ?_⟩
    · simp [fromJSData, fromJSSends, lookupFirst, insertionSortB, orderedInsertB, jsLeB, jsLtB,
        utf16, charUnits, unitsLtB]
    · simp [toRholang, toRholangSends, toRholangList, expr1, jsNumRepr, jsonQuote,
        jsonEscapeChar]
      decide

/-- Witness for C3: the integer, list and send rules applied at concrete
inputs. -/
theorem C3_toRholang_rendering_witness :
    ((7 : ℤ).natAbs < 2 ^ 53 ∧
      toRholang (Par.mk (some [.g_int ((7 : ℤ) : ℚ)]) none false) = Except.ok "7") ∧
    toRholang (Par.mk (some [.e_list_body [expr1 (.g_int ((1 : ℤ) : ℚ))]]) none false) =
      Except.ok "[1]" ∧
    toRholang (Par.mk none (some [(expr1 (.g_string "k"), [expr1 (.g_bool true)])]) false) =
      Except.ok "@\"k\"!(true)" := by
  refine ⟨⟨by norm_num, ?_⟩, ?_, ?_⟩
  · have h := C3_toRholang_rendering.2.1 7 none false (by norm_num)
    simpa using h
  · have h := C3_toRholang_rendering.2.2.2.1 [expr1 (.g_int ((1 : ℤ) : ℚ))] ["1"] none false
      (by simp [toRholangList, toRholang, expr1, jsNumRepr]; decide)
    simpa using h
  · have h := C3_toRholang_rendering.2.2.2.2.1 (expr1 (.g_string "k")) (expr1 (.g_bool true))
      [] "\"k\"" "true" [] false
      (by simp [toRholang, expr1, jsonQuote, jsonEscapeChar]; decide)
      (by simp [toRholang, expr1])
      (by rw [toRholangSends])
    simpa using h

/-- C4 (amended): the encoder succeeds on every supported native value and
fails with the UnsupportedType error on function and undefined values, but
it does NOT reject non-integer numbers: any number, fractional included,
is silently encoded as a single g_int literal carrying that value. -/
theorem C4_encoder_domain :
    (∀ v : JSValue, SupportedB v = true → ∃ t, fromJSData v = Except.ok t) ∧
    fromJSData JSValue.jfun = Except.error "no mapping to RHOCore for function" ∧
    fromJSData JSValue.jundef = Except.error "no mapping to RHOCore for undefined" ∧
    (∀ q : ℚ, fromJSData (JSValue.jnum q) = Except.ok (expr1 (.g_int q))) := by
  refine ⟨?_, by rw [fromJSData], by rw [fromJSData], fun q => by rw [fromJSData]⟩
  intro v hsup
  obtain ⟨t, w, ht, _, _⟩ := roundtrip_main (sizeOf v) v (le_refl _) hsup
  exact ⟨t, ht⟩

/-- Witness for C4 at a supported value. -/
theorem C4_encoder_domain_witness :
    SupportedB (JSValue.jarr [JSValue.jbool true, JSValue.jnull]) = true ∧
    ∃ t, fromJSData (JSValue.jarr [JSValue.jbool true, JSValue.jnull]) = Except.ok t :=
  ⟨by simp [SupportedB, SupportedListB],
   C4_encoder_domain.1 _ (by simp [SupportedB, SupportedListB])⟩

/-- Counterexample to C4 as stated: a fractional number is not rejected;
the encoder returns a g_int literal holding the non-integral value instead
of failing with UnsupportedType. -/
theorem C4_encoder_domain_counterexample :
    (mkRat 3 2).den ≠ 1 ∧
    fromJSData (JSValue.jnum (mkRat 3 2)) = Except.ok (expr1 (.g_int (mkRat 3 2))) :=
  ⟨by decide, by rw [fromJSData]⟩

/-- C5 (amended): neither the decoder nor the printer checks the payload
arity.  The decoder uses only the first payload element and ignores the
rest; on an empty payload it crashes with a TypeError (reading a property
of undefined), not a MalformedTerm error.  The printer renders every
payload element comma-joined, whatever their number, and does not fail. -/
theorem C5_payload_arity :
    (∀ (c p₀ : Par) (extra : List Par) (x : Bool),
      toJSData (Par.mk none (some [(c, p₀ :: extra)]) x) =
        toJSData (Par.mk none (some [(c, [p₀])]) x)) ∧
    (∀ (c : Par) (x : Bool), toJSData (Par.mk none (some [(c, [])]) x) =
      toJSData c >>= fun _ =>
        Except.error "TypeError: Cannot read properties of undefined (reading 'exprs')") ∧
    (∀ (c : Par) (ds : List Par) (cR : String) (dsR : List String) (x : Bool),
      toRholang c = Except.ok cR → toRholangList ds = Except.ok dsR →
      toRholang (Par.mk none (some [(c, ds)]) x) =
        Except.ok ("@" ++ cR ++ "!(" ++ String.intercalate ", " dsR ++ ")")) := by
  refine ⟨?_, ?_, ?_⟩
  · intro c p₀ extra x
    simp [toJSData, toJSDataSends]
  · intro c x
    simp only [toJSData, toJSDataSends]
    cases hc : toJSData c with
    | error e => rfl
    | ok k => rfl
  · intro c ds cR dsR x h1 h2
    simp only [toRholang, toRholangSends]
    rw [h1]
    simp only [except_ok_bind]
    rw [h2]
    rfl

/-- Witness for C5: a send with an empty payload prints as an empty
argument list instead of failing. -/
theorem C5_payload_arity_witness :
    toRholang (Par.mk none (some [(expr1 (.g_string "k"), [])]) false) =
      Except.ok "@\"k\"!()" := by
  have h := C5_payload_arity.2.2 (expr1 (.g_string "k")) [] "\"k\"" [] false
    (by simp [toRholang, expr1, jsonQuote, jsonEscapeChar]; decide)
    (by rw [toRholangList])
  simpa using h

/-- Counterexample to C5 as stated: on a payload of length two, the
decoder succeeds with the first element and the printer renders both
elements, and neither fails with a MalformedTerm error. -/
theorem C5_payload_arity_counterexample :
    toJSData (Par.mk none (some [(expr1 (.g_string "k"),
        [expr1 (.g_int 1), expr1 (.g_int 2)])]) false) =
      Except.ok (JSValue.jobj [("k", JSValue.jnum 1)]) ∧
    toRholang (Par.mk none (some [(expr1 (.g_string "k"),
        [expr1 (.g_int 1), expr1 (.g_int 2)])]) false) =
      Except.ok "@\"k\"!(1, 2)" := by
  constructor
  · simp [toJSData, toJSDataSends, jsSpread, setProp, jsToString, expr1]
  · simp [toRholang, toRholangSends, toRholangList, expr1, jsNumRepr, jsonQuote,
      jsonEscapeChar]
    decide

/-- C6 (amended): the decoder has no check on the channel kind.  The
decoded channel value is coerced to a string property key by the JS
ToString rules — a Bool channel yields the key true or false, an Int
channel of magnitude below 2 to the 53 its exact decimal text (larger
magnitudes take the ECMAScript shortest-round-trip and exponent-notation
renderings, floating-point behavior outside this embedding) — and a map
entry is built from it instead of a MalformedTerm failure. -/
theorem C6_channel_coercion :
    (∀ (b : Bool) (p : Par) (w : JSValue) (x : Bool), toJSData p = Except.ok w →
      toJSData (Par.mk none (some [(expr1 (.g_bool b), [p])]) x) =
        Except.ok (JSValue.jobj [(cond b "true" "false", w)])) ∧
    (∀ (n : ℤ) (p : Par) (w : JSValue) (x : Bool), n.natAbs < 2 ^ 53 →
      toJSData p = Except.ok w →
      toJSData (Par.mk none (some [(expr1 (.g_int (n : ℚ)), [p])]) x) =
        Except.ok (JSValue.jobj [(toString n, w)])) := by
  constructor
  · intro b p w x h
    simp [toJSData, toJSDataSends, expr1, h, jsSpread, jsToString]
  · intro n p w x _hn h
    simp [toJSData, toJSDataSends, expr1, h, jsSpread, jsToString, jsNumRepr,
      Rat.den_intCast, Rat.num_intCast]

/-- Witness for C6: an Int channel decodes to the key 42. -/
theorem C6_channel_coercion_witness :
    ((42 : ℤ).natAbs < 2 ^ 53 ∧
      toJSData (expr1 (.g_bool false)) = Except.ok (JSValue.jbool false)) ∧
    toJSData (Par.mk none (some [(expr1 (.g_int ((42 : ℤ) : ℚ)),
        [expr1 (.g_bool false)])]) false) =
      Except.ok (JSValue.jobj [("42", JSValue.jbool false)]) := by
  refine ⟨⟨by norm_num, by simp [toJSData, expr1]⟩, ?_⟩
  have h := C6_channel_coercion.2 42 (expr1 (.g_bool false)) (JSValue.jbool false) false
    (by norm_num) (by simp [toJSData, expr1])
  simpa using h

/-- Counterexample to C6 as stated: a Bool literal channel does not make
toJSData fail; it decodes to a map entry with the key true. -/
theorem C6_channel_coercion_counterexample :
    toJSData (Par.mk none (some [(expr1 (.g_bool true), [expr1 (.g_int 7)])]) false) =
      Except.ok (JSValue.jobj [("true", JSValue.jnum 7)]) := by
  simp [toJSData, toJSDataSends, jsSpread, setProp, jsToString, expr1]

/-- C7 (amended): on duplicate keys the EARLIER-processed send entry wins:
the fold builds the object literal with the new entry written before the
spread of the accumulator, so an existing binding from an earlier entry
overrides the later one. -/
theorem C7_first_entry_wins (k : String) (p₁ p₂ : Par) (w₁ w₂ : JSValue) (x : Bool)
    (h₁ : toJSData p₁ = Except.ok w₁) (h₂ : toJSData p₂ = Except.ok w₂) :
    toJSData (Par.mk none (some [(expr1 (.g_string k), [p₁]),
        (expr1 (.g_string k), [p₂])]) x) =
      Except.ok (JSValue.jobj [(k, w₁)]) := by
  simp [toJSData, toJSDataSends, expr1, h₁, h₂, jsSpread, setProp, jsToString]

/-- Witness for C7 at concrete payloads. -/
theorem C7_first_entry_wins_witness :
    toJSData (expr1 (.g_int 1)) = Except.ok (JSValue.jnum 1) ∧
    toJSData (Par.mk none (some [(expr1 (.g_string "k"), [expr1 (.g_int 1)]),
        (expr1 (.g_string "k"), [expr1 (.g_int 2)])]) false) =
      Except.ok (JSValue.jobj [("k", JSValue.jnum 1)]) :=
  ⟨by simp [toJSData, expr1],
   C7_first_entry_wins "k" (expr1 (.g_int 1)) (expr1 (.g_int 2)) (JSValue.jnum 1)
     (JSValue.jnum 2) false (by simp [toJSData, expr1]) (by simp [toJSData, expr1])⟩

/-- Counterexample to C7 as stated: with two sends on the key k carrying 1
then 2, the decoded map binds k to 1 (the earlier entry), not to the value
2 of the later-processed entry. -/
theorem C7_first_entry_wins_counterexample :
    toJSData (Par.mk none (some [(expr1 (.g_string "k"), [expr1 (.g_int 1)]),
        (expr1 (.g_string "k"), [expr1 (.g_int 2)])]) false) =
      Except.ok (JSValue.jobj [("k", JSValue.jnum 1)]) ∧
    lookupFirst [("k", JSValue.jnum 1)] "k" = some (JSValue.jnum 1) ∧
    JSValue.jnum 1 ≠ JSValue.jnum 2 := by
  refine ⟨?_, by simp [lookupFirst], ?_⟩
  · simp [toJSData, toJSDataSends, jsSpread, setProp, jsToString, expr1]
  · intro h
    injection h with h
    norm_num at h

/-- C8: a node carrying more than one literal in its exprs slot is
rejected by both the decoder and the printer with the MalformedTerm error
message of the code (N exprs not part of RHOCore). -/
theorem C8_multi_literal_rejected (e₁ e₂ : Expr Par) (rest : List (Expr Par))
    (so : Option (List (Par × List Par))) (x : Bool) :
    toJSData (Par.mk (some (e₁ :: e₂ :: rest)) so x) =
      Except.error (toString (rest.length + 2) ++ " exprs not part of RHOCore") ∧
    toRholang (Par.mk (some (e₁ :: e₂ :: rest)) so x) =
      Except.error (toString (rest.length + 2) ++ " exprs not part of RHOCore") :=
  ⟨by simp [toJSData], by simp [toRholang]⟩

/-- C9: toByteArray invokes the schema validation Par.verify but discards
its returned error message (protobufjs verify returns rather than throws),
so a term failing validation — here a fractional g_int, rejected by the
sint64 schema — is serialized to bytes anyway instead of failing with a
SchemaViolation before serialization. -/
theorem C9_verify_result_discarded :
    parVerify (Par.mk (some [.g_int (mkRat 3 2)]) none false) =
      some "g_int: integer expected" ∧
    toByteArray (Par.mk (some [.g_int (mkRat 3 2)]) none false) =
      [0, 1, 1, 1, 3, 0, 2, 0] := by
  constructor
  · simp [parVerify, exprsVerify]
    decide
  · simp [toByteArray, parEncode, exprsEncode]
    decide

/-- C10: a node with neither a nonempty exprs field nor a sends field
decodes to null and prints as Nil, regardless of any other content the
node may carry — the extra-content flag is arbitrary and neither operation
inspects it. -/
theorem C10_nil_fallback (eo : Option (List (Expr Par))) (x : Bool)
    (h : eo = none ∨ eo = some []) :
    toJSData (Par.mk eo none x) = Except.ok JSValue.jnull ∧
    toRholang (Par.mk eo none x) = Except.ok "Nil" := by
  rcases h with rfl | rfl
  · exact ⟨by simp [toJSData], by simp [toRholang]⟩
  · exact ⟨by simp [toJSData], by simp [toRholang]⟩

/-- Witness for C10 at a node with an empty exprs array and extra content. -/
theorem C10_nil_fallback_witness :
    ((some [] : Option (List (Expr Par))) = none ∨
      (some [] : Option (List (Expr Par))) = some []) ∧
    toJSData (Par.mk (some []) none true) = Except.ok JSValue.jnull ∧
    toRholang (Par.mk (some []) none true) = Except.ok "Nil" :=
  ⟨Or.inr rfl, C10_nil_fallback (some []) true (Or.inr rfl)⟩
